import Mathlib

/-!
Verification of the proximal-operator module (`src/prox/Prox.py`).

The module defines a base class `Prox` with a complex/real dispatch in
`__call__`, a phase reconstruction `_complex`, and four concrete variants
(`L1Regularizer`, `L2Regularizer`, `SquaredL2Regularizer`, `BoxConstraint`),
each a closed-form `_apply` on real arrays.

Embedding choices:
- arrays are `List ℝ` (real data) wrapped in a `Tensor` carrying a dtype tag;
  complex arrays are `List ℂ`;
- floating-point numbers are modelled by `ℝ`; the one claim about IEEE
  division-by-zero semantics (`±∞`/`NaN` in the `Re(v)=0` branch of
  `_complex`) uses a dedicated extended type `FF` that adjoins `±∞` and `NaN`
  to `ℝ` with the IEEE rules for the operations the branch performs;
- the constructors are `Except`-valued, with an error exactly where the
  source raises (`assert('unitary' in T.property)` in `L1Regularizer.__init__`).
-/

namespace MIRTorch

/-- Element dtypes a torch tensor can carry, as far as the dispatch in
`Prox.__call__` distinguishes them.  `chalf` is half-precision complex
(`torch.chalf`), which the source's condition does not test for. -/
inductive DType where
  | float16 | float32 | float64 | chalf | cfloat | cdouble
deriving DecidableEq, Repr

/-- Dispatch condition of `Prox.__call__` (line 22):
`v.dtype == torch.cfloat or v.dtype == torch.cdouble`. -/
def usesComplexPath (d : DType) : Bool :=
  d == DType.cfloat || d == DType.cdouble

/-- A tensor: a dtype tag plus element data.  Complex data lives in `ℂ`;
a tensor of real dtype stores its (real) elements in the real parts, with
zero imaginary parts. -/
structure Tensor where
  dtype : DType
  data : List ℂ

/-- The optional transform passed to `L1Regularizer`: a linear map object
exposing `apply` and a queryable set of self-reported algebraic properties
(the source tests `'unitary' in T.property`). -/
structure LinMap where
  apply : List ℝ → List ℝ
  property : List String

/-- The four concrete operator variants with their construction-time
parameters, as stored by the `__init__` methods. -/
inductive Operator where
  | L1 (Lambda : ℝ) (T : Option LinMap)
  | L2 (Lambda : ℝ)
  | SquaredL2 (Lambda : ℝ)
  | Box (Lambda : ℝ) (lower upper : ℝ)

/-- Errors raised at construction time.  `invalidParameter` models the
failed `assert('unitary' in T.property)` in `L1Regularizer.__init__`. -/
inductive ProxError where
  | invalidParameter
deriving DecidableEq

/-- `L1Regularizer.__init__(Lambda, T)`: stores `Lambda`; if `T` is given,
asserts `'unitary' in T.property` and fails otherwise. -/
def mkL1 (Lambda : ℝ) (T : Option LinMap) : Except ProxError Operator :=
  match T with
  | none => .ok (.L1 Lambda none)
  | some t =>
      if "unitary" ∈ t.property then .ok (.L1 Lambda (some t))
      else .error .invalidParameter

/-- `L2Regularizer.__init__(Lambda)`: stores `Lambda`, no validation. -/
def mkL2 (Lambda : ℝ) : Except ProxError Operator := .ok (.L2 Lambda)

/-- `SquaredL2Regularizer.__init__(Lambda)`: stores `Lambda`, no validation. -/
def mkSquaredL2 (Lambda : ℝ) : Except ProxError Operator :=
  .ok (.SquaredL2 Lambda)

/-- `BoxConstraint.__init__(Lambda, lower, upper)`: stores all three, no
validation. -/
def mkBox (Lambda lower upper : ℝ) : Except ProxError Operator :=
  .ok (.Box Lambda lower upper)

/-- `torch.nn.Softshrink(lam)` applied to a scalar:
`x - lam` if `x > lam`, `x + lam` if `x < -lam`, else `0`. -/
noncomputable def softshrink (lam x : ℝ) : ℝ :=
  if lam < x then x - lam else if x < -lam then x + lam else 0

/-- `torch.linalg.norm` of a real array: the full-array Euclidean norm
`sqrt (Σ xᵢ²)`. -/
noncomputable def l2norm (v : List ℝ) : ℝ :=
  Real.sqrt (v.map (fun x => x ^ 2)).sum

/-- `torch.linalg.norm` of an arbitrary (complex-element) array:
`sqrt (Σ |zᵢ|²)`.  On real-valued data it coincides with `l2norm`. -/
noncomputable def l2normC (zs : List ℂ) : ℝ :=
  Real.sqrt (zs.map (fun z => Complex.abs z ^ 2)).sum

/-- The `_apply` method of each variant restricted to real arrays (the
spec's `apply_magnitude`, and the data `_apply` sees on every real-dtype
tensor and on the magnitude tensor `v.abs()`):
- `L1Regularizer._apply` (lines 58-65): optionally transform by `T`, then
  elementwise `Softshrink(Lambda)`;
- `L2Regularizer._apply` (lines 81-86):
  `scale = 1 - Lambda / max(Lambda, ‖v‖₂)`, result `scale * v` (real
  division here is faithful exactly when the divisor is nonzero; the
  degenerate `0.0/0.0` case is modelled by `l2applyF` below);
- `SquaredL2Regularizer._apply` (lines 104-106): `v / (1 + 2*Lambda)`;
- `BoxConstraint._apply` (lines 128-130): `torch.clamp(v, l, u)`,
  elementwise `min (max x l) u`. -/
noncomputable def Operator.applyMag : Operator → List ℝ → List ℝ
  | .L1 lam T, v =>
      let w := match T with
        | none => v
        | some t => t.apply v
      w.map (softshrink lam)
  | .L2 lam, v =>
      let scale := 1 - lam / max lam (l2norm v)
      v.map (fun x => scale * x)
  | .SquaredL2 lam, v => v.map (fun x => x / (1 + 2 * lam))
  | .Box _ l u, v => v.map (fun x => min (max x l) u)

/-- Dtype of `v.abs()`: a complex dtype maps to the matching real dtype;
real dtypes are unchanged. -/
def absDType : DType → DType
  | .chalf => .float16
  | .cfloat => .float32
  | .cdouble => .float64
  | d => d

/-- The `_apply` method of each variant applied to the tensor it receives,
unchanged — as in the source, where `__call__`'s real branch passes `v`
itself and the complex branch passes `v.abs()` (a real tensor).
`torch.linalg.norm`, `torch.mul` and `torch.div` have kernels for every
dtype, so the L2 and squared-L2 arms are the complex formulas, which
restrict to the real ones on real-valued data.  `torch.nn.Softshrink` and
`torch.clamp` have no complex kernels: on a complex-dtype tensor the tensor
layer raises a RuntimeError (outside this module, and outside the spec's
failure scope), so those arms are only ever reached with real-valued data
(zero imaginary parts, by the `Tensor` convention), on which they apply the
real formulas to the stored real parts; no theorem below evaluates them on
data with nonzero imaginary parts. -/
noncomputable def Operator.applyT : Operator → Tensor → Tensor
  | .L1 lam T, v =>
      let w := match T with
        | none => v.data.map Complex.re
        | some t => t.apply (v.data.map Complex.re)
      ⟨v.dtype, (w.map (softshrink lam)).map (fun x : ℝ => (x : ℂ))⟩
  | .L2 lam, v =>
      let scale := 1 - lam / max lam (l2normC v.data)
      ⟨v.dtype, v.data.map (fun z => ((scale : ℝ) : ℂ) * z)⟩
  | .SquaredL2 lam, v =>
      ⟨v.dtype, v.data.map (fun z => z / ((1 + 2 * lam : ℝ) : ℂ))⟩
  | .Box _ l u, v =>
      ⟨v.dtype, ((v.data.map Complex.re).map (fun x => min (max x l) u)).map
        (fun x : ℝ => (x : ℂ))⟩

/-- Angle computed by `Prox._complex` (line 35):
`torch.atan(v.imag / v.real)`, elementwise. -/
noncomputable def complexAngle (z : ℂ) : ℝ := Real.arctan (z.im / z.re)

/-- Phase reconstruction of `Prox._complex` (lines 35-37):
`torch.complex(torch.cos(angle), torch.sin(angle))`, elementwise. -/
noncomputable def complexPhase (z : ℂ) : ℂ :=
  ⟨Real.cos (complexAngle z), Real.sin (complexAngle z)⟩

/-- `Prox.__call__` (lines 20-24): if the dtype is `cfloat` or `cdouble`,
return `self._complex(v) * self._apply(v.abs())` (elementwise product of the
reconstructed phase with the real solver applied to the magnitudes);
otherwise return `self._apply(v)` on the real data. -/
noncomputable def Prox.call (op : Operator) (v : Tensor) : Tensor :=
  if usesComplexPath v.dtype then
    ⟨v.dtype,
      List.zipWith (fun z m => complexPhase z * m) v.data
        (op.applyT ⟨absDType v.dtype,
          v.data.map (fun z => ((Complex.abs z : ℝ) : ℂ))⟩).data⟩
  else
    op.applyT v

/-- `Prox.__call__` with the call-path raise sites made explicit: the
source's `__call__`, `_complex` and every `_apply` contain no `raise` and no
`assert`, so the `Except`-typed translation has no error site. -/
noncomputable def Prox.callE (op : Operator) (v : Tensor) : Except ProxError Tensor :=
  .ok (Prox.call op v)

/-- State-passing form of `Prox.__call__`: the call returns the operator
object it ran on together with the result.  The source's call path contains
no assignment to `self` (the local `thresh` in `L1Regularizer._apply` is a
fresh object each call), so the operator passes through unchanged. -/
noncomputable def Prox.callS (op : Operator) (v : Tensor) : Operator × Tensor :=
  (op, Prox.call op v)

/-- Phase of the SPEC (§4.1), for comparison with the code: the elementwise
unit-magnitude direction `v / |v|` of a nonzero complex number. -/
noncomputable def specPhase (z : ℂ) : ℂ := z / (Complex.abs z : ℂ)

/-- Result the SPEC's complex contract prescribes (§4.1):
elementwise `phase(v) * apply_magnitude(|v|)` with `phase = v / |v|`. -/
noncomputable def specComplexResult (op : Operator) (zs : List ℂ) : List ℂ :=
  List.zipWith (fun z m => specPhase z * (m : ℂ)) zs
    (op.applyMag (zs.map Complex.abs))

/-! IEEE-style model for the `Re(v) = 0` branch of `_complex`.  Finite
floats are `num x`; the divisions, `atan`, `cos` and `sin` the branch
performs follow the IEEE rules: `b / +0 = ±∞` by the sign of `b` (`NaN` for
`0 / 0`), `atan (±∞) = ±π/2`, and `cos`/`sin` propagate `NaN`. -/

/-- A floating-point value: a finite real, `+∞`, `-∞`, or `NaN`. -/
inductive FF where
  | num (x : ℝ) | inf | ninf | nan

/-- IEEE division for the operand shapes `_complex` produces: both operands
finite (tensors hold finite values), with a zero divisor giving `±∞` or
`NaN`.  Non-finite operands do not arise; they map to `NaN`. -/
noncomputable def FF.div : FF → FF → FF
  | .num a, .num b =>
      if b = 0 then (if 0 < a then .inf else if a < 0 then .ninf else .nan)
      else .num (a / b)
  | _, _ => .nan

/-- `torch.atan` on the extended values: `atan (±∞) = ±π/2`, `NaN` stays
`NaN`. -/
noncomputable def FF.atan : FF → FF
  | .num x => .num (Real.arctan x)
  | .inf => .num (Real.pi / 2)
  | .ninf => .num (-(Real.pi / 2))
  | .nan => .nan

/-- `torch.cos` on the extended values: `NaN` (and `±∞`) give `NaN`. -/
noncomputable def FF.cos : FF → FF
  | .num x => .num (Real.cos x)
  | _ => .nan

/-- `torch.sin` on the extended values: `NaN` (and `±∞`) give `NaN`. -/
noncomputable def FF.sin : FF → FF
  | .num x => .num (Real.sin x)
  | _ => .nan

/-- `Prox._complex` on one element with real part `re` and imaginary part
`im`, under the IEEE model: `theta = atan (im / re)`, result
`(cos theta, sin theta)` as (real part, imaginary part) of the phase. -/
noncomputable def complexPhaseF (re im : ℝ) : FF × FF :=
  let theta := FF.atan (FF.div (.num im) (.num re))
  (FF.cos theta, FF.sin theta)

/-- IEEE subtraction for the operand shapes the L2 scale computation
produces: finite minus finite, with `NaN` propagation (infinite operands do
not arise there). -/
noncomputable def FF.sub : FF → FF → FF
  | .num a, .num b => .num (a - b)
  | _, _ => .nan

/-- IEEE multiplication for the operand shapes the L2 output produces:
finite times finite, with `NaN` propagation — in particular
`NaN * 0 = NaN` (infinite operands do not arise there). -/
noncomputable def FF.mul : FF → FF → FF
  | .num a, .num b => .num (a * b)
  | _, _ => .nan

/-- `L2Regularizer._apply` (lines 81-86) on a real array under the IEEE
model: `scale = 1.0 - Lambda / torch.max(Lambda, ‖v‖₂)` with IEEE division
— so `0.0 / 0.0 = NaN` when `Lambda = 0` and `‖v‖₂ = 0` — then elementwise
`scale * v`.  `torch.max` of two finite values and the norm of a finite
array are finite, so only the division can leave the finite range. -/
noncomputable def l2applyF (lam : ℝ) (v : List ℝ) : List FF :=
  let scale := FF.sub (.num 1) (FF.div (.num lam) (.num (max lam (l2norm v))))
  v.map (fun x => FF.mul scale (.num x))

/-! Helper lemmas. -/

/-- Real parts of a coerced real list recover the list. -/
theorem map_re_map_ofReal (xs : List ℝ) :
    (xs.map (fun t : ℝ => (t : ℂ))).map Complex.re = xs := by
  induction xs with
  | nil => rfl
  | cons a l ih => simp only [List.map_cons, Complex.ofReal_re, ih]

/-- The complex norm of a coerced real list is its real norm. -/
theorem l2normC_map_ofReal (xs : List ℝ) :
    l2normC (xs.map (fun t : ℝ => (t : ℂ))) = l2norm xs := by
  unfold l2normC l2norm
  congr 1
  rw [List.map_map]
  exact congrArg List.sum (List.map_congr_left (fun a _ => by
    simp [Function.comp_def, Complex.abs_ofReal, sq_abs]))

/-- On real-valued data (a coerced real list) the tensor-level `_apply`
agrees with the real-array `_apply`, variant by variant. -/
theorem applyT_real (op : Operator) (d : DType) (xs : List ℝ) :
    op.applyT ⟨d, xs.map (fun t : ℝ => (t : ℂ))⟩
      = ⟨d, (op.applyMag xs).map (fun t : ℝ => (t : ℂ))⟩ := by
  cases op with
  | L1 lam T =>
      simp only [Operator.applyT, Operator.applyMag, map_re_map_ofReal]
  | L2 lam =>
      simp only [Operator.applyT, Operator.applyMag, l2normC_map_ofReal]
      congr 1
      rw [List.map_map, List.map_map]
      apply List.map_congr_left
      intro a _
      simp [Complex.ofReal_mul]
  | SquaredL2 lam =>
      simp only [Operator.applyT, Operator.applyMag]
      congr 1
      rw [List.map_map, List.map_map]
      apply List.map_congr_left
      intro a _
      simp [Complex.ofReal_div]
  | Box lam l u =>
      simp only [Operator.applyT, Operator.applyMag, map_re_map_ofReal]

/-- On a tensor whose dtype is not complex-dispatched, `Prox.__call__`
reduces to the variant's `_apply` on the real data. -/
theorem call_real (op : Operator) (d : DType) (xs : List ℝ)
    (h : usesComplexPath d = false) :
    Prox.call op ⟨d, xs.map (fun t : ℝ => (t : ℂ))⟩
      = ⟨d, (op.applyMag xs).map (fun t : ℝ => (t : ℂ))⟩ := by
  have hc : Prox.call op ⟨d, xs.map (fun t : ℝ => (t : ℂ))⟩
      = op.applyT ⟨d, xs.map (fun t : ℝ => (t : ℂ))⟩ := by
    simp only [Prox.call, h, Bool.false_eq_true, if_false]
  rw [hc, applyT_real]

/-- Off the degenerate zero divisor, the IEEE model of
`L2Regularizer._apply` agrees with the real-division arm of
`Operator.applyMag`. -/
theorem l2applyF_eq_applyMag (lam : ℝ) (v : List ℝ)
    (h : max lam (l2norm v) ≠ 0) :
    l2applyF lam v = ((Operator.L2 lam).applyMag v).map FF.num := by
  unfold l2applyF
  have hd : FF.div (.num lam) (.num (max lam (l2norm v)))
      = .num (lam / max lam (l2norm v)) := by
    simp [FF.div, h]
  rw [hd]
  have happ : (Operator.L2 lam).applyMag v
      = v.map (fun x => (1 - lam / max lam (l2norm v)) * x) := rfl
  rw [happ, List.map_map]
  apply List.map_congr_left
  intro a _
  simp [FF.sub, FF.mul]

/-- `Softshrink(0)` is the identity. -/
theorem softshrink_zero (x : ℝ) : softshrink 0 x = x := by
  unfold softshrink
  rcases lt_trichotomy x 0 with hx | hx | hx
  · rw [if_neg (by linarith), if_pos (by linarith)]; ring
  · simp [hx]
  · rw [if_pos hx]; ring

/-- For `0 ≤ lam`, `Softshrink(lam)` equals the spec's soft-threshold
formula `sign x * max (|x| - lam) 0`. -/
theorem softshrink_eq_sign (lam x : ℝ) (h : 0 ≤ lam) :
    softshrink lam x = Real.sign x * max (|x| - lam) 0 := by
  unfold softshrink
  by_cases h1 : lam < x
  · have hx : 0 < x := lt_of_le_of_lt h h1
    rw [if_pos h1, Real.sign_of_pos hx, abs_of_pos hx, one_mul,
      max_eq_left (by linarith)]
  · rw [if_neg h1]
    by_cases h2 : x < -lam
    · have hx : x < 0 := lt_of_lt_of_le h2 (by linarith)
      rw [if_pos h2, Real.sign_of_neg hx, abs_of_neg hx,
        max_eq_left (by linarith)]
      ring
    · rw [if_neg h2]
      have hub : x ≤ lam := not_lt.mp h1
      have hlb : -lam ≤ x := not_lt.mp h2
      rw [max_eq_right (by rcases abs_cases x with ⟨he, _⟩ | ⟨he, _⟩ <;>
        rw [he] <;> linarith), mul_zero]

/-- The Euclidean norm is nonnegative. -/
theorem l2norm_nonneg (v : List ℝ) : 0 ≤ l2norm v := Real.sqrt_nonneg _

/-! Claims. -/

/-- C5: constructing `L1Regularizer` with a transform whose property set
lacks `"unitary"` fails at construction with `invalidParameter`;
construction with a unitary-reporting transform, or with no transform,
succeeds (and the failure happens in the constructor, before any call). -/
theorem mkL1_unitary_check (lam : ℝ) (t : LinMap) :
    ("unitary" ∉ t.property → mkL1 lam (some t) = .error .invalidParameter)
    ∧ ("unitary" ∈ t.property → mkL1 lam (some t) = .ok (.L1 lam (some t)))
    ∧ mkL1 lam none = .ok (.L1 lam none) := by
  refine ⟨fun h => ?_, fun h => ?_, rfl⟩ <;> simp [mkL1, h]

/-- C5 witness: a transform with an empty property list is rejected; one
reporting `"unitary"` is accepted. -/
theorem mkL1_unitary_check_w :
    ("unitary" ∉ (LinMap.mk id []).property
      ∧ mkL1 1 (some (LinMap.mk id [])) = .error .invalidParameter)
    ∧ ("unitary" ∈ (LinMap.mk id ["unitary"]).property
      ∧ mkL1 1 (some (LinMap.mk id ["unitary"]))
          = .ok (.L1 1 (some (LinMap.mk id ["unitary"])))) :=
  ⟨⟨by simp, (mkL1_unitary_check 1 (LinMap.mk id [])).1 (by simp)⟩,
   ⟨by simp, (mkL1_unitary_check 1 (LinMap.mk id ["unitary"])).2.1 (by simp)⟩⟩

/-- C6: every constructor other than the L1-with-transform case succeeds for
any real `Lambda` (negative included), and the call path, with its raise
sites translated to `Except`, always returns a result: no call-time error
path exists. -/
theorem call_total (lam l u : ℝ) (op : Operator) (v : Tensor) :
    mkL2 lam = .ok (.L2 lam)
    ∧ mkSquaredL2 lam = .ok (.SquaredL2 lam)
    ∧ mkBox lam l u = .ok (.Box lam l u)
    ∧ mkL1 lam none = .ok (.L1 lam none)
    ∧ Prox.callE op v = .ok (Prox.call op v) :=
  ⟨rfl, rfl, rfl, rfl, rfl⟩

/-- C9: in the state-passing embedding, a call returns the operator
unchanged, and a second call on the returned operator with an equal input
returns an equal output: operators are pure functions of (parameters,
input). -/
theorem call_pure (op : Operator) (v : Tensor) :
    (Prox.callS op v).1 = op
    ∧ (Prox.callS (Prox.callS op v).1 v).2 = (Prox.callS op v).2 :=
  ⟨rfl, rfl⟩

/-- C10: the complex dispatch branch is taken exactly for dtypes `cfloat`
and `cdouble`; a tensor of any other dtype, half-precision complex
included, is passed unchanged to the variant's `_apply` — the real-valued
path, with no magnitude/phase decomposition. -/
theorem dispatch_complex_iff (d : DType) (op : Operator) (zs : List ℂ) :
    (usesComplexPath d = true ↔ (d = .cfloat ∨ d = .cdouble))
    ∧ (d ≠ .cfloat → d ≠ .cdouble →
        Prox.call op ⟨d, zs⟩ = op.applyT ⟨d, zs⟩)
    ∧ usesComplexPath .chalf = false := by
  refine ⟨by cases d <;> simp [usesComplexPath], fun h1 h2 => ?_, rfl⟩
  have hd : usesComplexPath d = false := by
    cases d <;> simp_all [usesComplexPath]
  simp [Prox.call, hd]

/-- C10 witness: a `chalf` tensor holding `i` takes the real path — no
magnitude/phase decomposition — and `SquaredL2(0)`'s `torch.div` kernel
leaves `i` unchanged, as the program does. -/
theorem dispatch_complex_iff_w :
    (DType.chalf ≠ DType.cfloat ∧ DType.chalf ≠ DType.cdouble)
    ∧ Prox.call (.SquaredL2 0) ⟨.chalf, [Complex.I]⟩ = ⟨.chalf, [Complex.I]⟩ := by
  refine ⟨⟨by decide, by decide⟩, ?_⟩
  rw [(dispatch_complex_iff .chalf (.SquaredL2 0) [Complex.I]).2.1
    (by decide) (by decide)]
  norm_num [Operator.applyT]

/-- C7: the box-constraint operator clamps elementwise to
`min (max x lower) upper` whenever `lower ≤ upper`, and its stored `Lambda`
has no effect on the output. -/
theorem box_clamp (lam l u : ℝ) (v : List ℝ) (h : l ≤ u) :
    Prox.call (.Box lam l u) ⟨.float32, v.map (fun t : ℝ => (t : ℂ))⟩
      = ⟨.float32, (v.map (fun x => min (max x l) u)).map (fun t : ℝ => (t : ℂ))⟩
    ∧ ∀ (lam2 : ℝ) (w : Tensor),
        Prox.call (.Box lam l u) w = Prox.call (.Box lam2 l u) w := by
  refine ⟨?_, fun lam2 w => ?_⟩
  · exact call_real (.Box lam l u) .float32 v rfl
  · simp [Prox.call, Operator.applyT]

/-- Scalar soft-thresholding facts used by C2: for `0 ≤ lam`, `Softshrink`
vanishes on `|x| ≤ lam` and subtracts `lam * sign x` beyond the threshold. -/
theorem softshrink_branches (lam x : ℝ) (h : 0 ≤ lam) :
    (|x| ≤ lam → softshrink lam x = 0)
    ∧ (lam < |x| → softshrink lam x = x - lam * Real.sign x) := by
  constructor
  · intro hle
    rw [softshrink_eq_sign lam x h, max_eq_right (by linarith), mul_zero]
  · intro hgt
    rw [softshrink_eq_sign lam x h, max_eq_left (by linarith)]
    rcases abs_cases x with ⟨he, hx⟩ | ⟨he, hx⟩
    · rcases lt_or_eq_of_le hx with hx0 | hx0
      · rw [Real.sign_of_pos hx0, he]; ring
      · exfalso; rw [← hx0] at hgt; simp at hgt; linarith
    · rw [Real.sign_of_neg hx, he]; ring

/-- C2: for `Lambda ≥ 0`, the L1 operator without a transform maps a real
scalar `x` to `sign x * max (|x| - Lambda) 0`; equivalently it returns `0`
when `|x| ≤ Lambda` and `x - Lambda * sign x` otherwise. -/
theorem l1_soft_threshold (lam x : ℝ) (h : 0 ≤ lam) :
    Prox.call (.L1 lam none) ⟨.float32, [x].map (fun t : ℝ => (t : ℂ))⟩
      = ⟨.float32, [Real.sign x * max (|x| - lam) 0].map (fun t : ℝ => (t : ℂ))⟩
    ∧ (|x| ≤ lam →
        Prox.call (.L1 lam none) ⟨.float32, [x].map (fun t : ℝ => (t : ℂ))⟩
          = ⟨.float32, [(0 : ℝ)].map (fun t : ℝ => (t : ℂ))⟩)
    ∧ (lam < |x| →
        Prox.call (.L1 lam none) ⟨.float32, [x].map (fun t : ℝ => (t : ℂ))⟩
          = ⟨.float32, [x - lam * Real.sign x].map (fun t : ℝ => (t : ℂ))⟩) := by
  have hc := call_real (.L1 lam none) .float32 [x] rfl
  have happ : (Operator.L1 lam none).applyMag [x] = [softshrink lam x] := rfl
  rw [happ] at hc
  refine ⟨?_, fun hle => ?_, fun hgt => ?_⟩
  · rw [hc, softshrink_eq_sign lam x h]
  · rw [hc, (softshrink_branches lam x h).1 hle]
  · rw [hc, (softshrink_branches lam x h).2 hgt]

/-- C2 witness: with `Lambda = 2`, the input `5` soft-thresholds to `3`. -/
theorem l1_soft_threshold_w :
    (0 : ℝ) ≤ 2
    ∧ Prox.call (.L1 2 none) ⟨.float32, [(5 : ℝ)].map (fun t : ℝ => (t : ℂ))⟩
        = ⟨.float32, [(3 : ℝ)].map (fun t : ℝ => (t : ℂ))⟩ := by
  refine ⟨by norm_num, ?_⟩
  have h5 : (2 : ℝ) < |(5 : ℝ)| := by rw [abs_of_pos] <;> norm_num
  rw [(l1_soft_threshold 2 5 (by norm_num)).2.2 h5,
    Real.sign_of_pos (by norm_num : (0:ℝ) < 5)]
  norm_num

/-- C3 counterexample: with `Lambda = 0` and `v = [0]` (so
`‖v‖₂ = 0 ≤ Lambda`), the source's scale is `1.0 - 0.0/0.0 = NaN` and
`L2Regularizer._apply` returns `[NaN]`, not the zero array the claim
requires. -/
theorem l2_zero_over_zero_nan :
    l2applyF 0 [0] = [FF.nan] ∧ [FF.nan] ≠ [FF.num 0] := by
  constructor
  · simp [l2applyF, l2norm, FF.div, FF.sub, FF.mul]
  · simp

/-- C3 (amended): for `Lambda ≥ 0`, outside the degenerate
`Lambda = 0 = ‖v‖₂` case (where the source's `0.0/0.0` makes the scale
NaN), the L2 operator scales the whole real array by the single scalar
`1 - Lambda / max Lambda ‖v‖₂`, that scalar is never negative, and
whenever `‖v‖₂ ≤ Lambda` the output is the zero array. -/
theorem l2_group_shrink (lam : ℝ) (v : List ℝ) (h : 0 ≤ lam)
    (h0 : lam ≠ 0 ∨ l2norm v ≠ 0) :
    Prox.call (.L2 lam) ⟨.float32, v.map (fun t : ℝ => (t : ℂ))⟩
      = ⟨.float32,
          (v.map (fun x => (1 - lam / max lam (l2norm v)) * x)).map
            (fun t : ℝ => (t : ℂ))⟩
    ∧ 0 ≤ 1 - lam / max lam (l2norm v)
    ∧ (l2norm v ≤ lam →
        Prox.call (.L2 lam) ⟨.float32, v.map (fun t : ℝ => (t : ℂ))⟩
          = ⟨.float32, (v.map (fun _ => (0 : ℝ))).map (fun t : ℝ => (t : ℂ))⟩) := by
  have hc := call_real (.L2 lam) .float32 v rfl
  have happ : (Operator.L2 lam).applyMag v
      = v.map (fun x => (1 - lam / max lam (l2norm v)) * x) := rfl
  rw [happ] at hc
  refine ⟨hc, ?_, fun hle => ?_⟩
  · rcases eq_or_lt_of_le (le_max_of_le_left h : (0:ℝ) ≤ max lam (l2norm v))
      with hm | hm
    · rw [← hm, div_zero]; norm_num
    · have hq : lam / max lam (l2norm v) ≤ 1 :=
        (div_le_one hm).mpr (le_max_left _ _)
      linarith
  · have hlam : 0 < lam := by
      rcases h0 with h0 | h0
      · exact lt_of_le_of_ne h (Ne.symm h0)
      · have h1 : 0 < l2norm v := lt_of_le_of_ne (l2norm_nonneg v) (Ne.symm h0)
        linarith
    rw [hc]
    have hm : max lam (l2norm v) = lam := max_eq_left hle
    have hs : 1 - lam / max lam (l2norm v) = 0 := by
      rw [hm, div_self (ne_of_gt hlam)]; ring
    have hmap : v.map (fun x => (1 - lam / max lam (l2norm v)) * x)
        = v.map (fun _ => (0 : ℝ)) := by
      apply List.map_congr_left
      intro a _
      rw [hs, zero_mul]
    rw [hmap]

/-- C3 witness: with `Lambda = 2` (nonzero divisor) and `v = [0]`, the norm
is below the threshold and the output is the zero array. -/
theorem l2_group_shrink_w :
    ((0 : ℝ) ≤ 2 ∧ ((2 : ℝ) ≠ 0 ∨ l2norm [(0 : ℝ)] ≠ 0) ∧ l2norm [(0 : ℝ)] ≤ 2)
    ∧ Prox.call (.L2 2) ⟨.float32, [(0 : ℝ)].map (fun t : ℝ => (t : ℂ))⟩
        = ⟨.float32, ([(0 : ℝ)].map (fun _ => (0 : ℝ))).map (fun t : ℝ => (t : ℂ))⟩ := by
  have hn : l2norm [(0 : ℝ)] = 0 := by
    simp [l2norm]
  exact ⟨⟨by norm_num, Or.inl (by norm_num), by rw [hn]; norm_num⟩,
    (l2_group_shrink 2 [0] (by norm_num) (Or.inl (by norm_num))).2.2
      (by rw [hn]; norm_num)⟩

/-- C4 counterexample: `L2Regularizer(0.)` evaluated on the zero array
`[0]` returns `[NaN]` in the source (its scale is `1.0 - 0.0/0.0`), not the
array unchanged. -/
theorem l2_identity_fails_at_zero :
    l2applyF 0 [0] ≠ [FF.num 0] := by
  have h : l2applyF 0 [0] = [FF.nan] := by
    simp [l2applyF, l2norm, FF.div, FF.sub, FF.mul]
  rw [h]
  simp

/-- C4 (amended): with `Lambda = 0`, L1 without transform and squared-L2
return every real array unchanged; L2 returns the array unchanged whenever
`‖v‖₂ ≠ 0` (on the zero array the source's `0.0/0.0` scale is NaN); the box
constraint returns the elementwise clamp regardless of its `Lambda`. -/
theorem lambda_zero_identity (v : List ℝ) (l u lam : ℝ) :
    Prox.call (.L1 0 none) ⟨.float32, v.map (fun t : ℝ => (t : ℂ))⟩
      = ⟨.float32, v.map (fun t : ℝ => (t : ℂ))⟩
    ∧ (l2norm v ≠ 0 →
        Prox.call (.L2 0) ⟨.float32, v.map (fun t : ℝ => (t : ℂ))⟩
          = ⟨.float32, v.map (fun t : ℝ => (t : ℂ))⟩)
    ∧ Prox.call (.SquaredL2 0) ⟨.float32, v.map (fun t : ℝ => (t : ℂ))⟩
      = ⟨.float32, v.map (fun t : ℝ => (t : ℂ))⟩
    ∧ Prox.call (.Box lam l u) ⟨.float32, v.map (fun t : ℝ => (t : ℂ))⟩
      = ⟨.float32, (v.map (fun x => min (max x l) u)).map (fun t : ℝ => (t : ℂ))⟩ := by
  refine ⟨?_, fun hv => ?_, ?_, call_real (.Box lam l u) .float32 v rfl⟩
  · rw [call_real (.L1 0 none) .float32 v rfl]
    have : (Operator.L1 0 none).applyMag v = v.map (softshrink 0) := rfl
    rw [this, List.map_congr_left (fun a _ => softshrink_zero a), List.map_id' v]
  · rw [call_real (.L2 0) .float32 v rfl]
    have : (Operator.L2 0).applyMag v
        = v.map (fun x => (1 - 0 / max 0 (l2norm v)) * x) := rfl
    rw [this]
    have hz : ∀ a ∈ v, (1 - 0 / max 0 (l2norm v)) * a = a := by
      intro a _
      rw [zero_div, sub_zero, one_mul]
    rw [List.map_congr_left hz, List.map_id' v]
  · rw [call_real (.SquaredL2 0) .float32 v rfl]
    have : (Operator.SquaredL2 0).applyMag v
        = v.map (fun x => x / (1 + 2 * 0)) := rfl
    rw [this]
    have hz : ∀ a ∈ v, a / (1 + 2 * 0) = a := by
      intro a _
      norm_num
    rw [List.map_congr_left hz, List.map_id' v]

/-- C4 witness: at `v = [3]`, whose norm `3` is nonzero, the `Lambda = 0`
L2 and L1 operators leave the array unchanged. -/
theorem lambda_zero_identity_w :
    l2norm [(3 : ℝ)] ≠ 0
    ∧ Prox.call (.L2 0) ⟨.float32, [(3 : ℝ)].map (fun t : ℝ => (t : ℂ))⟩
        = ⟨.float32, [(3 : ℝ)].map (fun t : ℝ => (t : ℂ))⟩
    ∧ Prox.call (.L1 0 none) ⟨.float32, [(3 : ℝ)].map (fun t : ℝ => (t : ℂ))⟩
        = ⟨.float32, [(3 : ℝ)].map (fun t : ℝ => (t : ℂ))⟩ := by
  have hn : l2norm [(3 : ℝ)] = 3 := by
    have hs : ([(3 : ℝ)].map (fun x => x ^ 2)).sum = 3 ^ 2 := by norm_num
    unfold l2norm
    rw [hs]
    exact Real.sqrt_sq (by norm_num)
  have hn0 : l2norm [(3 : ℝ)] ≠ 0 := by rw [hn]; norm_num
  exact ⟨hn0, (lambda_zero_identity [3] 0 1 7).2.1 hn0,
    (lambda_zero_identity [3] 0 1 7).1⟩

/-- C7 witness: with lower 0 and upper 1, the input `[-1, 1/2, 2]` clamps to
`[0, 1/2, 1]`, with an arbitrary `Lambda` of 3. -/
theorem box_clamp_w :
    (0 : ℝ) ≤ 1
    ∧ Prox.call (.Box 3 0 1) ⟨.float32, [(-1 : ℝ), 1/2, 2].map (fun t : ℝ => (t : ℂ))⟩
        = ⟨.float32, [(0 : ℝ), 1/2, 1].map (fun t : ℝ => (t : ℂ))⟩ := by
  refine ⟨by norm_num, ?_⟩
  rw [(box_clamp 3 0 1 [-1, 1/2, 2] (by norm_num)).1]
  norm_num [max_def, min_def]

/-- C1: the complex path does NOT reproduce `phase(v) * apply_magnitude(|v|)`
with `phase(v) = v / |v|` on every all-nonzero complex array.  On the
one-element `cfloat` array `[-1]` (nonzero, real part negative) with
`SquaredL2(Lambda = 0)`: the code's atan-reconstructed phase is
`cos (atan (0 / -1)) + i sin (atan (0 / -1)) = 1`, so the call returns `[1]`,
while the contract's value is `phase(-1) * apply_magnitude(1) = [-1]`. -/
theorem complex_negative_real_divergence :
    Prox.call (.SquaredL2 0) ⟨.cfloat, [(-1 : ℂ)]⟩ = ⟨.cfloat, [(1 : ℂ)]⟩
    ∧ specComplexResult (.SquaredL2 0) [(-1 : ℂ)] = [(-1 : ℂ)]
    ∧ (1 : ℂ) ≠ -1 := by
  have h0 : Prox.call (.SquaredL2 0) ⟨.cfloat, [(-1 : ℂ)]⟩
      = ⟨.cfloat, List.zipWith (fun z m => complexPhase z * m) [(-1 : ℂ)]
          ((Operator.SquaredL2 0).applyT ⟨absDType .cfloat,
            [(-1 : ℂ)].map (fun z => ((Complex.abs z : ℝ) : ℂ))⟩).data⟩ := rfl
  refine ⟨?_, ?_, by norm_num⟩
  · rw [h0]
    simp [Operator.applyT, complexPhase, complexAngle, Complex.ext_iff]
  · simp [specComplexResult, specPhase, Operator.applyMag, Complex.ext_iff]

/-- C8: in the IEEE model of `_complex`, an element with `Re(v) = 0` and
`Im(v) > 0` gets phase `+i` (division gives `+∞`, `atan (+∞) = π/2`), one
with `Im(v) < 0` gets phase `-i`, and `0 + 0i` gets `NaN` phase. -/
theorem phase_zero_real_edge (b : ℝ) :
    (0 < b → complexPhaseF 0 b = (.num 0, .num 1))
    ∧ (b < 0 → complexPhaseF 0 b = (.num 0, .num (-1)))
    ∧ complexPhaseF 0 0 = (.nan, .nan) := by
  refine ⟨fun hb => ?_, fun hb => ?_, ?_⟩
  · simp [complexPhaseF, FF.div, hb, FF.atan, FF.cos, FF.sin,
      Real.cos_pi_div_two, Real.sin_pi_div_two]
  · have hb2 : ¬ (0 : ℝ) < b := not_lt.mpr hb.le
    simp [complexPhaseF, FF.div, hb, hb2, FF.atan, FF.cos, FF.sin,
      Real.cos_neg, Real.sin_neg, Real.cos_pi_div_two, Real.sin_pi_div_two]
  · simp [complexPhaseF, FF.div, FF.atan, FF.cos, FF.sin]

/-- C8 witness: for `v = 0 + 3i` the reconstructed phase is exactly `i`,
i.e. real part `0` and imaginary part `1`. -/
theorem phase_zero_real_edge_w :
    (0 : ℝ) < 3 ∧ complexPhaseF 0 3 = (.num 0, .num 1) :=
  ⟨by norm_num, (phase_zero_real_edge 3).1 (by norm_num)⟩

end MIRTorch
